import Mathlib

/-
Verification of the mactone package (src/mactone/__init__.py and setup.py).

The package plays macOS system alert sounds and trims trailing silence.
Two parts are embedded here:

1. The catalog lookup used by `play_system_sound`, `random_tone` and
   `play_trimmed_system_sound`: the enumerated sound names (the result of
   `list_tones`, an external filesystem enumerator) are a parameter, the
   Python dict comprehension `{s.lower(): s for s in list_tones()}` is an
   insertion-ordered association list, and the two raised exceptions
   (`ValueError` for a missing name, `RuntimeError` for an empty catalog in
   `random_tone`) become an error type returned through `Except`.

2. The silence trimmer `trim_silence_from_file`: an audio buffer is the
   decoded sample sequence at millisecond resolution (pydub's
   `AudioSegment` is sliced and measured in milliseconds), each entry the
   local amplitude in dBFS as a rational number.  Decoding
   (`AudioSegment.from_file`) is the external Decoder collaborator and is
   passed as a function.  `pydub.silence.detect_nonsilent` is not part of
   this repository, so it is modelled from the spec (see
   `detect_nonsilent` below).
-/

set_option maxRecDepth 8000

/-- Path to macOS system sounds (`_SOUND_DIR` in the source). -/
def SOUND_DIR : String := "/System/Library/Sounds"

/-- Python `str.lower` on a name: lowercase every character.  Written on the
underlying character list so the kernel can evaluate it. -/
def lowerStr (s : String) : String := ⟨s.data.map Char.toLower⟩

/-- Lexicographic comparison of character lists by code point, the order
Python's `sorted` uses on strings. -/
def charListLt : List Char → List Char → Bool
  | [], [] => false
  | [], _ :: _ => true
  | _ :: _, [] => false
  | a :: as, b :: bs => if a < b then true else if b < a then false else charListLt as bs

/-- Strict string comparison by code point. -/
def strLtB (s t : String) : Bool := charListLt s.data t.data

/-- Insert a string into an already sorted list (one step of the sort
behind Python's `sorted`). -/
def insertSorted (x : String) : List String → List String
  | [] => [x]
  | y :: ys => if strLtB y x then y :: insertSorted x ys else x :: y :: ys

/-- Python's `sorted` on a list of strings, as an insertion sort. -/
def sortStrings (l : List String) : List String := l.foldr insertSorted []

/-- One Python dict assignment `d[k] = v` on an insertion-ordered
association list: an existing key keeps its position and gets the new
value, a fresh key is appended. -/
def insertKV (d : List (String × String)) (k v : String) : List (String × String) :=
  if d.any (fun p => decide (p.1 = k)) then
    d.map (fun p => if p.1 = k then (k, v) else p)
  else d ++ [(k, v)]

/-- Python dict indexing `d[k]` / membership `k in d`. -/
def dictFind (d : List (String × String)) (k : String) : Option String :=
  (d.find? (fun p => decide (p.1 = k))).map (fun p => p.2)

/-- Python `d.keys()`. -/
def dictKeys (d : List (String × String)) : List String := d.map (fun p => p.1)

/-- Python `d.values()`, in insertion order. -/
def dictValues (d : List (String × String)) : List String := d.map (fun p => p.2)

/-- The dict comprehension `available = {s.lower(): s for s in list_tones()}`
shared by `play_system_sound`, `play_trimmed_system_sound` and
`test_tone_timing`.  `tones` stands for the enumerator's result
`list_tones()`. -/
def available (tones : List String) : List (String × String) :=
  tones.foldl (fun d s => insertKV d (lowerStr s) s) []

/-- The caller-visible errors of the playback functions: `notFound` is the
`ValueError` whose message interpolates the requested name and
`', '.join(sorted(available.values()))`, carried here as the name and the
sorted list of alternatives; `emptyCatalog` is the `RuntimeError`
`No system tones found.` raised by `random_tone`. -/
inductive PlayError
  | notFound (name : String) (alternatives : List String)
  | emptyCatalog
  deriving DecidableEq

/-- `play_system_sound(name)` up to the external player call: look the
lowercased name up in `available`; on a hit return the path handed to
`afplay`, otherwise the Not Found error. -/
def play_system_sound (tones : List String) (name : String) : Except PlayError String :=
  let avail := available tones
  let name_lc := lowerStr name
  match dictFind avail name_lc with
  | some actual_name => Except.ok (SOUND_DIR ++ "/" ++ actual_name ++ ".aiff")
  | none => Except.error (PlayError.notFound name (sortStrings (dictValues avail)))

/-- `random_tone()`: with a non-empty catalog play a randomly chosen tone
(the random draw is external, so the choice enters as an index `pick`),
otherwise raise the Empty Catalog error. -/
def random_tone (tones : List String) (pick : ℕ) : Except PlayError String :=
  if h : tones ≠ [] then
    play_system_sound tones (tones.get ⟨pick % tones.length, Nat.mod_lt pick (List.length_pos.mpr h)⟩)
  else
    Except.error PlayError.emptyCatalog

/-- An audio buffer: the decoded samples at millisecond resolution, each
entry the local amplitude in dBFS.  Positions and durations are list
indices and lengths, matching pydub's millisecond slicing. -/
abbrev Buffer := List ℚ

/-- Maximal runs of consecutive positions satisfying `p`, as half-open
index ranges.  `i` is the position of the head of the remaining list and
`st` the start of the run currently open, if any. -/
def runsAux (p : ℚ → Bool) : Buffer → ℕ → Option ℕ → List (ℕ × ℕ)
  | [], _, none => []
  | [], i, some s => [(s, i)]
  | a :: rest, i, none =>
      if p a then runsAux p rest (i + 1) (some i) else runsAux p rest (i + 1) none
  | a :: rest, i, some s =>
      if p a then runsAux p rest (i + 1) (some s) else (s, i) :: runsAux p rest (i + 1) none

/-- Modelled from the spec: `pydub.silence.detect_nonsilent`, called by
`trim_silence_from_file`, is an external dependency whose code is not in
this repository.  Per the spec's data model and glossary, it scans the
buffer and returns the ordered list of non-silent intervals: half-open
ranges `[start, end)` of millisecond positions whose amplitude exceeds
`silence_thresh` for at least `min_silence_len` milliseconds; a buffer
that is entirely silent, or shorter than `min_silence_len`, yields the
empty list. -/
def detect_nonsilent (audio : Buffer) (min_silence_len : ℕ) (silence_thresh : ℚ) :
    List (ℕ × ℕ) :=
  (runsAux (fun a => decide (silence_thresh < a)) audio 0 none).filter
    (fun r => decide (min_silence_len ≤ r.2 - r.1))

/-- The trimming logic of `trim_silence_from_file` (lines 64-75): detect the
non-silent ranges; when there are any, cut at the end of the last one
(`audio[:last_non_silent_end]`, which is `List.take` since pydub slices by
millisecond), otherwise return the audio unchanged.  The timing probes
(`time.perf_counter`) store into unused locals and are dropped. -/
def trim (audio : Buffer) (silence_thresh : ℚ) (min_silence_len : ℕ) : Buffer :=
  let non_silence_ranges := detect_nonsilent audio min_silence_len silence_thresh
  if non_silence_ranges ≠ [] then
    audio.take (non_silence_ranges.getLastD (0, 0)).2
  else
    audio

/-- `trim_silence_from_file(file_path, silence_thresh, min_silence_len)`:
decode the file through the external Decoder collaborator `decode`, then
trim. -/
def trim_silence_from_file (decode : String → Buffer) (file_path : String)
    (silence_thresh : ℚ) (min_silence_len : ℕ) : Buffer :=
  trim (decode file_path) silence_thresh min_silence_len

/-- `play_trimmed_system_sound(name, silence_thresh, min_silence_len)` up to
the export and player calls: the same lookup as `play_system_sound`, then
the trimmed audio that gets exported and played, or the same Not Found
error. -/
def play_trimmed_system_sound (decode : String → Buffer) (tones : List String)
    (name : String) (silence_thresh : ℚ) (min_silence_len : ℕ) : Except PlayError Buffer :=
  let avail := available tones
  let name_lc := lowerStr name
  match dictFind avail name_lc with
  | some actual_name =>
      Except.ok (trim_silence_from_file decode (SOUND_DIR ++ "/" ++ actual_name ++ ".aiff")
        silence_thresh min_silence_len)
  | none => Except.error (PlayError.notFound name (sortStrings (dictValues avail)))

/-- The spec's scenario buffer: 1000 ms with non-silent intervals exactly
`[(0, 200), (400, 600)]` at threshold -50 dBFS. -/
def bufScenario : Buffer :=
  List.replicate 200 0 ++ List.replicate 200 (-100) ++
    List.replicate 200 0 ++ List.replicate 400 (-100)

/-- A 300 ms buffer: 150 ms of tone followed by 150 ms of silence. -/
def bufToneThenSilence : Buffer := List.replicate 150 0 ++ List.replicate 150 (-100)

/-- A 100 ms buffer that is loud throughout. -/
def bufAllLoud : Buffer := List.replicate 100 0

/-- A 5 ms buffer that is entirely below -50 dBFS. -/
def bufAllSilent : Buffer := List.replicate 5 (-100)

/-- A 2 ms loud buffer, shorter than the default minimum silence length. -/
def bufShort : Buffer := [0, 0]

example : detect_nonsilent bufScenario 100 (-50) = [(0, 200), (400, 600)] := by decide

example : play_system_sound ["Glass", "Funk"] "gLaSs" =
    Except.ok "/System/Library/Sounds/Glass.aiff" := rfl

example : play_system_sound ["Glass", "GLASS"] "Ping" =
    Except.error (PlayError.notFound "Ping" ["GLASS"]) := rfl

/-- Every range produced by `runsAux` ends no later than the end of the
scanned list. -/
theorem runsAux_end_le (p : ℚ → Bool) (B : Buffer) :
    ∀ (i : ℕ) (st : Option ℕ) (r : ℕ × ℕ), r ∈ runsAux p B i st → r.2 ≤ i + B.length := by
  induction B with
  | nil =>
      intro i st r h
      cases st with
      | none => simp [runsAux] at h
      | some s =>
          simp [runsAux] at h
          simp [h]
  | cons a rest ih =>
      intro i st r h
      cases st with
      | none =>
          simp only [runsAux] at h
          split at h
          · have := ih (i + 1) (some i) r h
            simp only [List.length_cons]
            omega
          · have := ih (i + 1) none r h
            simp only [List.length_cons]
            omega
      | some s =>
          simp only [runsAux] at h
          split at h
          · have := ih (i + 1) (some s) r h
            simp only [List.length_cons]
            omega
          · rcases List.mem_cons.mp h with h1 | h2
            · subst h1
              simp only [List.length_cons]
              omega
            · have := ih (i + 1) none r h2
              simp only [List.length_cons]
              omega

/-- When no sample satisfies `p`, the scan with no open run produces no
range at all. -/
theorem runsAux_all_false (p : ℚ → Bool) :
    ∀ (B : Buffer), (∀ a ∈ B, p a = false) → ∀ i, runsAux p B i none = []
  | [], _, _ => by simp [runsAux]
  | a :: rest, hB, i => by
      have ha : p a = false := hB a (by simp)
      have hrest : ∀ x ∈ rest, p x = false := fun x hx => hB x (by simp [hx])
      simp only [runsAux, ha, Bool.false_eq_true, if_false]
      exact runsAux_all_false p rest hrest (i + 1)

/-- Every detected non-silent interval ends within the buffer. -/
theorem detect_nonsilent_end_le (B : Buffer) (m : ℕ) (t : ℚ) (r : ℕ × ℕ)
    (h : r ∈ detect_nonsilent B m t) : r.2 ≤ B.length := by
  have h2 := List.mem_of_mem_filter h
  simpa using runsAux_end_le _ B 0 none r h2

/-- A buffer shorter than the minimum silence length yields no detected
non-silent interval. -/
theorem detect_nonsilent_short (B : Buffer) (m : ℕ) (t : ℚ) (h : B.length < m) :
    detect_nonsilent B m t = [] := by
  unfold detect_nonsilent
  apply List.filter_eq_nil_iff.mpr
  intro r hr
  have := runsAux_end_le _ B 0 none r hr
  simp only [Nat.zero_add] at this
  simp only [decide_eq_true_eq]
  omega

/-- A buffer whose every sample is below the threshold yields no detected
non-silent interval. -/
theorem detect_nonsilent_all_silent (B : Buffer) (m : ℕ) (t : ℚ)
    (h : ∀ a ∈ B, a < t) : detect_nonsilent B m t = [] := by
  unfold detect_nonsilent
  have hall : ∀ a ∈ B, (fun a => decide (t < a)) a = false := by
    intro a ha
    simp only [decide_eq_false_iff_not]
    exact not_lt.mpr (h a ha).le
  rw [runsAux_all_false _ B hall 0]
  rfl

/-- The last element read off with a default is a member of a non-empty
list. -/
theorem getLastD_mem_of_ne_nil {α : Type} (l : List α) (d : α) (h : l ≠ []) :
    l.getLastD d ∈ l := by
  cases l with
  | nil => exact absurd rfl h
  | cons b l' =>
      rw [List.getLastD_cons]
      exact List.getLastD_mem_cons l' b

/-- C1: when the detected non-silent interval list is non-empty and its
last interval ends at position `p` (milliseconds), `trim` returns the
prefix of the buffer of length exactly `p`. -/
theorem c1_trim_cuts_at_last_nonsilent_end (B : Buffer) (t : ℚ) (m : ℕ)
    (h : detect_nonsilent B m t ≠ []) :
    trim B t m = B.take ((detect_nonsilent B m t).getLastD (0, 0)).2 ∧
    (trim B t m).length = ((detect_nonsilent B m t).getLastD (0, 0)).2 := by
  have hmem := getLastD_mem_of_ne_nil _ (0, 0) h
  have hle := detect_nonsilent_end_le B m t _ hmem
  constructor
  · simp [trim, h]
  · simp only [trim, h, ne_eq, not_false_iff, if_true, List.length_take]
    omega

/-- C1 witness: a 300 ms buffer, 150 ms of tone then 150 ms of silence, is
cut to the 150 ms prefix where its last non-silent interval ends. -/
theorem c1_witness :
    trim bufToneThenSilence (-50) 100 =
        bufToneThenSilence.take
          ((detect_nonsilent bufToneThenSilence 100 (-50)).getLastD (0, 0)).2 ∧
    (trim bufToneThenSilence (-50) 100).length =
        ((detect_nonsilent bufToneThenSilence 100 (-50)).getLastD (0, 0)).2 :=
  c1_trim_cuts_at_last_nonsilent_end bufToneThenSilence (-50) 100 (by decide)

/-- C2: for every buffer and every pair of threshold parameters, the
trimmed result is a prefix of the buffer and never longer than it. -/
theorem c2_trim_is_a_prefix_of_the_input (B : Buffer) (t : ℚ) (m : ℕ) :
    (∃ k, trim B t m = B.take k) ∧ (trim B t m).length ≤ B.length := by
  by_cases h : detect_nonsilent B m t = []
  · refine ⟨⟨B.length, ?_⟩, ?_⟩
    · simp [trim, h]
    · simp [trim, h]
  · refine ⟨⟨((detect_nonsilent B m t).getLastD (0, 0)).2, ?_⟩, ?_⟩
    · simp [trim, h]
    · simp only [trim, h, ne_eq, not_false_iff, if_true, List.length_take]
      omega

/-- C3: a buffer entirely below the silence threshold has no detected
non-silent interval and is returned unmodified, with no error. -/
theorem c3_all_silent_buffer_unchanged (B : Buffer) (t : ℚ) (m : ℕ)
    (h : ∀ a ∈ B, a < t) :
    detect_nonsilent B m t = [] ∧ trim B t m = B := by
  have hd := detect_nonsilent_all_silent B m t h
  exact ⟨hd, by simp [trim, hd]⟩

/-- C3 witness: a 5 ms buffer at -100 dBFS is below the -50 dBFS threshold
throughout and comes back unchanged. -/
theorem c3_witness :
    detect_nonsilent bufAllSilent 100 (-50) = [] ∧
    trim bufAllSilent (-50) 100 = bufAllSilent :=
  c3_all_silent_buffer_unchanged bufAllSilent (-50) 100 (by decide)

/-- C5: the spec's scenario: a 1000 ms buffer whose detected non-silent
intervals are exactly [(0, 200), (400, 600)] at silence_thresh -50 and
min_silence_len 100 trims to exactly 600 ms. -/
theorem c5_scenario_trims_to_600ms (B : Buffer)
    (hlen : B.length = 1000)
    (hdet : detect_nonsilent B 100 (-50) = [(0, 200), (400, 600)]) :
    (trim B (-50) 100).length = 600 := by
  simp [trim, hdet, List.length_take, hlen]

/-- C5 witness: the concrete scenario buffer (200 ms tone, 200 ms silence,
200 ms tone, 400 ms silence) realises the hypotheses. -/
theorem c5_witness : (trim bufScenario (-50) 100).length = 600 :=
  c5_scenario_trims_to_600ms bufScenario (by decide) (by decide)

/-- C6: trim is idempotent whenever the trimmed result's last detected
non-silent interval ends exactly at its final position. -/
theorem c6_trim_idempotent_when_end_nonsilent (B : Buffer) (t : ℚ) (m : ℕ)
    (h : detect_nonsilent (trim B t m) m t ≠ [])
    (hend : ((detect_nonsilent (trim B t m) m t).getLastD (0, 0)).2 = (trim B t m).length) :
    trim (trim B t m) t m = trim B t m := by
  generalize hT : trim B t m = T at h hend ⊢
  simp only [trim]
  rw [if_pos h, hend, List.take_length]

/-- C6 witness: a 100 ms all-loud buffer trims to itself, its single
non-silent interval ends at its final position, and re-trimming changes
nothing. -/
theorem c6_witness :
    trim (trim bufAllLoud (-50) 100) (-50) 100 = trim bufAllLoud (-50) 100 :=
  c6_trim_idempotent_when_end_nonsilent bufAllLoud (-50) 100 (by decide) (by decide)

/-- C7: a buffer shorter than min_silence_len milliseconds yields an empty
detected interval list and is returned unmodified, with no error. -/
theorem c7_short_buffer_unchanged (B : Buffer) (t : ℚ) (m : ℕ)
    (h : B.length < m) :
    detect_nonsilent B m t = [] ∧ trim B t m = B := by
  have hd := detect_nonsilent_short B m t h
  exact ⟨hd, by simp [trim, hd]⟩

/-- C7 witness: a 2 ms loud buffer is shorter than the 100 ms minimum
silence length and comes back unchanged. -/
theorem c7_witness :
    detect_nonsilent bufShort 100 (-50) = [] ∧
    trim bufShort (-50) 100 = bufShort :=
  c7_short_buffer_unchanged bufShort (-50) 100 (by decide)

/-- C8: trim is deterministic: two runs on equal buffers with equal
silence_thresh and equal min_silence_len produce equal results.  The
embedded trim is a pure function of these three inputs; the source's
perf_counter reads land in unused locals and its prints are commented
out, so no observable state outside the returned buffer is touched. -/
theorem c8_trim_deterministic (B1 B2 : Buffer) (t1 t2 : ℚ) (m1 m2 : ℕ)
    (hB : B1 = B2) (ht : t1 = t2) (hm : m1 = m2) :
    trim B1 t1 m1 = trim B2 t2 m2 := by
  subst hB
  subst ht
  subst hm
  rfl

/-- C8 witness: two runs on the same concrete buffer and parameters agree. -/
theorem c8_witness : trim bufShort (-50) 100 = trim bufShort (-50) 100 :=
  c8_trim_deterministic bufShort bufShort (-50) (-50) 100 100 rfl rfl rfl

/-- Replacing an existing key's value rewrites the entry without changing
its key. -/
theorem key_of_insert_entry (k v : String) (p : String × String) :
    (if p.1 = k then (k, v) else p).1 = p.1 := by
  by_cases hpk : p.1 = k
  · simp [hpk]
  · simp [hpk]

/-- The keys after a dict assignment are the old keys together with the
assigned key. -/
theorem mem_dictKeys_insertKV (d : List (String × String)) (k v k' : String) :
    k' ∈ dictKeys (insertKV d k v) ↔ k' = k ∨ k' ∈ dictKeys d := by
  unfold insertKV
  split
  · rename_i hany
    simp only [List.any_eq_true, decide_eq_true_eq] at hany
    obtain ⟨q, hq, hqk⟩ := hany
    have hkeys : dictKeys (d.map (fun p => if p.1 = k then (k, v) else p)) = dictKeys d := by
      simp only [dictKeys, List.map_map]
      exact List.map_congr_left (fun p _ => key_of_insert_entry k v p)
    rw [hkeys]
    constructor
    · exact Or.inr
    · rintro (rfl | h)
      · simp only [dictKeys, List.mem_map]
        exact ⟨q, hq, hqk⟩
      · exact h
  · simp only [dictKeys, List.map_append, List.mem_append, List.mem_map,
      List.map_cons, List.map_nil, List.mem_singleton]
    constructor
    · rintro (⟨p, hp, rfl⟩ | h)
      · exact Or.inr ⟨p, hp, rfl⟩
      · exact Or.inl h
    · rintro (rfl | ⟨p, hp, rfl⟩)
      · exact Or.inr rfl
      · exact Or.inl ⟨p, hp, rfl⟩

/-- A dict assignment preserves any property that holds of the old entries
and of the assigned pair. -/
theorem insertKV_forall {P : String × String → Prop} (d : List (String × String))
    (k v : String) (hd : ∀ p ∈ d, P p) (hkv : P (k, v)) :
    ∀ p ∈ insertKV d k v, P p := by
  unfold insertKV
  split
  · intro p hp
    simp only [List.mem_map] at hp
    obtain ⟨q, hq, rfl⟩ := hp
    by_cases hqk : q.1 = k
    · simpa [hqk] using hkv
    · simpa [hqk] using hd q hq
  · intro p hp
    rcases List.mem_append.mp hp with h | h
    · exact hd p h
    · simp only [List.mem_singleton] at h
      subst h
      exact hkv

/-- Every entry of `available` keys its value by the value's lowercase. -/
theorem available_forall (tones : List String) :
    ∀ p ∈ available tones, p.1 = lowerStr p.2 := by
  unfold available
  have h0 : ∀ p ∈ ([] : List (String × String)), p.1 = lowerStr p.2 := by simp
  generalize ([] : List (String × String)) = d0 at h0 ⊢
  induction tones generalizing d0 with
  | nil => simpa using h0
  | cons s rest ih =>
      simp only [List.foldl_cons]
      exact ih _ (insertKV_forall _ _ _ h0 rfl)

/-- The keys accumulated by the `available` fold. -/
theorem mem_dictKeys_available_aux (tones : List String) :
    ∀ (d : List (String × String)) (k : String),
      k ∈ dictKeys (tones.foldl (fun d s => insertKV d (lowerStr s) s) d) ↔
        k ∈ dictKeys d ∨ k ∈ tones.map lowerStr := by
  induction tones with
  | nil =>
      intro d k
      simp
  | cons s rest ih =>
      intro d k
      simp only [List.foldl_cons, List.map_cons, List.mem_cons]
      rw [ih, mem_dictKeys_insertKV]
      tauto

/-- A key is in `available tones` exactly when it is the lowercase of some
enumerated name. -/
theorem mem_dictKeys_available (tones : List String) (k : String) :
    k ∈ dictKeys (available tones) ↔ k ∈ tones.map lowerStr := by
  unfold available
  rw [mem_dictKeys_available_aux]
  simp [dictKeys]

/-- Dict lookup misses exactly when the key is absent. -/
theorem dictFind_eq_none_iff (d : List (String × String)) (k : String) :
    dictFind d k = none ↔ k ∉ dictKeys d := by
  unfold dictFind
  constructor
  · intro h hk
    cases hfind : d.find? (fun p => decide (p.1 = k)) with
    | some p => rw [hfind] at h; simp at h
    | none =>
        rw [List.find?_eq_none] at hfind
        simp only [dictKeys, List.mem_map] at hk
        obtain ⟨p, hp, hpk⟩ := hk
        exact hfind p hp (by simp [hpk])
  · intro hk
    cases hfind : d.find? (fun p => decide (p.1 = k)) with
    | none => simp [hfind]
    | some p =>
        exfalso
        have h1 := List.find?_some hfind
        have h2 := List.mem_of_find?_eq_some hfind
        simp only [decide_eq_true_eq] at h1
        exact hk (by
          simp only [dictKeys, List.mem_map]
          exact ⟨p, h2, h1⟩)

/-- A present key is found. -/
theorem dictFind_isSome_of_mem (d : List (String × String)) (k : String)
    (hk : k ∈ dictKeys d) : ∃ v, dictFind d k = some v := by
  cases hfind : d.find? (fun p => decide (p.1 = k)) with
  | some p => exact ⟨p.2, by simp [dictFind, hfind]⟩
  | none =>
      exfalso
      exact (dictFind_eq_none_iff d k).mp (by simp [dictFind, hfind]) hk

/-- Every enumerated name appears among the dict's values up to
lowercasing. -/
theorem values_cover (tones : List String) (s : String) (hs : s ∈ tones) :
    lowerStr s ∈ (dictValues (available tones)).map lowerStr := by
  have hk : lowerStr s ∈ dictKeys (available tones) :=
    (mem_dictKeys_available tones _).mpr (List.mem_map_of_mem _ hs)
  simp only [dictKeys, List.mem_map] at hk
  obtain ⟨p, hp, hpk⟩ := hk
  have hinv := available_forall tones p hp
  simp only [dictValues, List.map_map, List.mem_map, Function.comp]
  exact ⟨p, hp, hinv.symm.trans hpk⟩

/-- Membership survives sorted insertion. -/
theorem mem_insertSorted (x y : String) (l : List String) :
    y ∈ insertSorted x l ↔ y = x ∨ y ∈ l := by
  induction l with
  | nil => simp [insertSorted]
  | cons z zs ih =>
      simp only [insertSorted]
      split
      · simp only [List.mem_cons, ih]
        tauto
      · simp only [List.mem_cons]

/-- Sorting keeps exactly the same members. -/
theorem mem_sortStrings (l : List String) (y : String) :
    y ∈ sortStrings l ↔ y ∈ l := by
  induction l with
  | nil => simp [sortStrings]
  | cons z zs ih =>
      simp only [sortStrings, List.foldr_cons] at ih ⊢
      rw [mem_insertSorted, ih]
      simp

/-- A fresh key makes the dict membership test fail. -/
theorem any_eq_false_of_not_mem_keys (d : List (String × String)) (k : String)
    (h : k ∉ dictKeys d) : d.any (fun p => decide (p.1 = k)) = false := by
  rw [List.any_eq_false]
  intro p hp hpk
  simp only [decide_eq_true_eq] at hpk
  exact h (by
    simp only [dictKeys, List.mem_map]
    exact ⟨p, hp, hpk⟩)

/-- When the lowercased names are pairwise distinct the fold only appends,
so the dict is the name list paired with its lowercased keys. -/
theorem available_of_nodup_aux (tones : List String) :
    ∀ d : List (String × String),
      (∀ s ∈ tones, lowerStr s ∉ dictKeys d) → (tones.map lowerStr).Nodup →
      tones.foldl (fun d s => insertKV d (lowerStr s) s) d =
        d ++ tones.map (fun s => (lowerStr s, s)) := by
  induction tones with
  | nil =>
      intro d _ _
      simp
  | cons s rest ih =>
      intro d hfresh hnodup
      have hnd : (∀ x ∈ rest, ¬lowerStr x = lowerStr s) ∧ (rest.map lowerStr).Nodup := by
        simpa using hnodup
      have hs : lowerStr s ∉ dictKeys d := hfresh s (by simp)
      have hins : insertKV d (lowerStr s) s = d ++ [(lowerStr s, s)] := by
        unfold insertKV
        rw [if_neg]
        simp [any_eq_false_of_not_mem_keys d _ hs]
      simp only [List.foldl_cons, hins, List.map_cons]
      rw [ih (d ++ [(lowerStr s, s)]) ?_ hnd.2]
      · simp
      · intro s' hs'
        simp only [dictKeys, List.map_append, List.mem_append, List.map_cons,
          List.map_nil, List.mem_singleton, not_or]
        constructor
        · exact hfresh s' (by simp [hs'])
        · exact hnd.1 s' hs'

/-- `available` under pairwise distinct lowercased names. -/
theorem available_of_nodup (tones : List String) (h : (tones.map lowerStr).Nodup) :
    available tones = tones.map (fun s => (lowerStr s, s)) := by
  unfold available
  rw [available_of_nodup_aux tones [] (by simp [dictKeys]) h]
  simp

/-- A missed lookup takes the raising branch of `play_system_sound`. -/
theorem play_system_sound_of_find_none (tones : List String) (name : String)
    (h : dictFind (available tones) (lowerStr name) = none) :
    play_system_sound tones name =
      Except.error (PlayError.notFound name (sortStrings (dictValues (available tones)))) := by
  simp [play_system_sound, h]

/-- A hit takes the playing branch of `play_system_sound`. -/
theorem play_system_sound_of_find_some (tones : List String) (name a : String)
    (h : dictFind (available tones) (lowerStr name) = some a) :
    play_system_sound tones name = Except.ok (SOUND_DIR ++ "/" ++ a ++ ".aiff") := by
  simp [play_system_sound, h]

/-- A missed lookup takes the raising branch of `play_trimmed_system_sound`. -/
theorem play_trimmed_of_find_none (dec : String → Buffer) (tones : List String)
    (name : String) (t : ℚ) (m : ℕ)
    (h : dictFind (available tones) (lowerStr name) = none) :
    play_trimmed_system_sound dec tones name t m =
      Except.error (PlayError.notFound name (sortStrings (dictValues (available tones)))) := by
  simp [play_trimmed_system_sound, h]

/-- A hit takes the playing branch of `play_trimmed_system_sound`. -/
theorem play_trimmed_of_find_some (dec : String → Buffer) (tones : List String)
    (name a : String) (t : ℚ) (m : ℕ)
    (h : dictFind (available tones) (lowerStr name) = some a) :
    play_trimmed_system_sound dec tones name t m =
      Except.ok (trim_silence_from_file dec (SOUND_DIR ++ "/" ++ a ++ ".aiff") t m) := by
  simp [play_trimmed_system_sound, h]

/-- The lookup of `play_system_sound` misses exactly when the lowercased
name is the lowercase of no enumerated name. -/
theorem dictFind_available_none_iff (tones : List String) (k : String) :
    dictFind (available tones) k = none ↔ k ∉ tones.map lowerStr := by
  rw [dictFind_eq_none_iff, mem_dictKeys_available]

/-- C4 counterexample: with an empty catalog, looking up a name yields the
Not Found error with an empty alternatives list, not an Empty Catalog
error distinct from it. -/
theorem c4_counterexample :
    play_system_sound [] "Glass" = Except.error (PlayError.notFound "Glass" []) ∧
    PlayError.notFound "Glass" [] ≠ PlayError.emptyCatalog :=
  ⟨rfl, by decide⟩

/-- C4 (amended): with an empty catalog, name lookup raises the Not Found
error, whose alternatives list is empty; the distinct Empty Catalog error
is raised only by `random_tone`, which looks up no name. -/
theorem c4_amended_empty_catalog_errors (name : String) (pick : ℕ) :
    play_system_sound [] name = Except.error (PlayError.notFound name []) ∧
    random_tone [] pick = Except.error PlayError.emptyCatalog :=
  ⟨rfl, rfl⟩

/-- C9 counterexample: with the catalog [Glass, GLASS] (two names sharing a
lowercase), the Not Found error for the missing name Ping lists only GLASS,
omitting the valid enumerated name Glass. -/
theorem c9_counterexample :
    play_system_sound ["Glass", "GLASS"] "Ping" =
        Except.error (PlayError.notFound "Ping" ["GLASS"]) ∧
    "Glass" ∈ (["Glass", "GLASS"] : List String) ∧
    "Glass" ∉ (["GLASS"] : List String) :=
  ⟨rfl, by decide, by decide⟩

/-- C9 (amended): on a miss, `play_system_sound` raises the Not Found error
listing the sorted values of the lookup dict; those alternatives cover
every enumerated name up to lowercasing (one stored representative per
lowercase class), and they contain every enumerated name whenever no two
enumerated names coincide case-insensitively. -/
theorem c9_not_found_lists_alternatives (tones : List String) (name : String)
    (hmiss : lowerStr name ∉ tones.map lowerStr) :
    play_system_sound tones name =
      Except.error (PlayError.notFound name (sortStrings (dictValues (available tones)))) ∧
    (∀ s ∈ tones, lowerStr s ∈ (sortStrings (dictValues (available tones))).map lowerStr) ∧
    ((tones.map lowerStr).Nodup →
      ∀ s ∈ tones, s ∈ sortStrings (dictValues (available tones))) := by
  refine ⟨?_, ?_, ?_⟩
  · exact play_system_sound_of_find_none tones name
      ((dictFind_available_none_iff tones _).mpr hmiss)
  · intro s hs
    have := values_cover tones s hs
    simp only [List.mem_map] at this ⊢
    obtain ⟨v, hv, hveq⟩ := this
    exact ⟨v, (mem_sortStrings _ v).mpr hv, hveq⟩
  · intro hnodup s hs
    rw [mem_sortStrings]
    rw [available_of_nodup tones hnodup]
    simp only [dictValues, List.map_map, Function.comp]
    simpa using hs

/-- C9 witness: with catalog [Glass, Funk] and missing name Ping, the
error lists both names, each recoverable up to case, and (the lowercases
being distinct) both names literally. -/
theorem c9_witness :
    play_system_sound ["Glass", "Funk"] "Ping" =
      Except.error (PlayError.notFound "Ping"
        (sortStrings (dictValues (available ["Glass", "Funk"])))) ∧
    (∀ s ∈ (["Glass", "Funk"] : List String),
      lowerStr s ∈ (sortStrings (dictValues (available ["Glass", "Funk"]))).map lowerStr) ∧
    (((["Glass", "Funk"] : List String).map lowerStr).Nodup →
      ∀ s ∈ (["Glass", "Funk"] : List String),
        s ∈ sortStrings (dictValues (available ["Glass", "Funk"]))) :=
  c9_not_found_lists_alternatives ["Glass", "Funk"] "Ping" (by decide)

/-- C10: lookup is case-insensitive: `play_system_sound` (and
`play_trimmed_system_sound`) raises the Not Found error exactly when the
lowercased requested name matches no lowercased enumerated name, and
every case variant of an enumerated name plays successfully. -/
theorem c10_lookup_case_insensitive (tones : List String) (name : String) :
    ((∃ alts, play_system_sound tones name =
        Except.error (PlayError.notFound name alts)) ↔
      lowerStr name ∉ tones.map lowerStr) ∧
    (∀ (dec : String → Buffer) (t : ℚ) (m : ℕ),
      (∃ alts, play_trimmed_system_sound dec tones name t m =
          Except.error (PlayError.notFound name alts)) ↔
        lowerStr name ∉ tones.map lowerStr) ∧
    (∀ s ∈ tones, ∀ v : String, lowerStr v = lowerStr s →
      ∃ path, play_system_sound tones v = Except.ok path) := by
  refine ⟨?_, ?_, ?_⟩
  · constructor
    · rintro ⟨alts, halts⟩
      cases hfind : dictFind (available tones) (lowerStr name) with
      | none => exact (dictFind_available_none_iff tones _).mp hfind
      | some a =>
          rw [play_system_sound_of_find_some tones name a hfind] at halts
          exact absurd halts (by simp)
    · intro hmiss
      exact ⟨_, play_system_sound_of_find_none tones name
        ((dictFind_available_none_iff tones _).mpr hmiss)⟩
  · intro dec t m
    constructor
    · rintro ⟨alts, halts⟩
      cases hfind : dictFind (available tones) (lowerStr name) with
      | none => exact (dictFind_available_none_iff tones _).mp hfind
      | some a =>
          rw [play_trimmed_of_find_some dec tones name a t m hfind] at halts
          exact absurd halts (by simp)
    · intro hmiss
      exact ⟨_, play_trimmed_of_find_none dec tones name t m
        ((dictFind_available_none_iff tones _).mpr hmiss)⟩
  · intro s hs v hv
    have hk : lowerStr v ∈ dictKeys (available tones) := by
      rw [mem_dictKeys_available, hv]
      exact List.mem_map_of_mem lowerStr hs
    obtain ⟨a, ha⟩ := dictFind_isSome_of_mem _ _ hk
    exact ⟨_, play_system_sound_of_find_some tones v a ha⟩
